import Mathlib

/-!
Verification of the snapitqr packaging scripts.

The repository has two Python scripts that bundle directory trees into
zip archives:

* `backend/create-zips.py` (the Bulk Packager): for each configured root
  directory that exists, it opens a zip at `root/snapitqr-root.zip` and
  walks the root top-down, skipping any walk root whose path contains the
  zip path as a substring, filtering the subdirectory list against a fixed
  denylist before descending, and writing every file that does not end in
  `.zip` under its path relative to the root.

* `backend/stripe-operations/create_deployment.py` (the Selective
  Packager): deletes a pre-existing `function.zip`, adds `index.js` and
  `package.json` when present, then walks `node_modules` (without pruning),
  skipping any directory whose path contains `aws-sdk` or one of a set of
  non-production substrings, and skipping files with denylisted extensions
  or a leading dot; entries are stored under the raw walked path.

Directory trees are modelled by the nested inductive `FSTree`; the walks
are transcribed from the source as mutually recursive functions over it.
Python string operations (`in`, `endswith`, `startswith`, single-character
`replace`) are modelled over `String.data`.
-/

/-! ## Data model and embedded operations -/

/-- Python `needle in hay` (substring containment). -/
def pyIn (needle hay : String) : Bool := decide (needle.data <:+: hay.data)

/-- Python `s.endswith(pat)`. -/
def pyEndsWith (s pat : String) : Bool := decide (pat.data <:+ s.data)

/-- Python `s.startswith(pat)`. -/
def pyStartsWith (s pat : String) : Bool := decide (pat.data <+: s.data)

/-- Python `s.replace(old, new)` for single-character patterns. -/
def pyReplaceChar (old rep : Char) (s : String) : String :=
  ⟨s.data.map (fun c => if c = old then rep else c)⟩

/-- `os.path.join(a, b)` for simple relative components on a POSIX system. -/
def joinPath (a b : String) : String := a ++ "/" ++ b

/-- The path of the directory reached from `base` by descending along the
component list `s`: this is the `root` value `os.walk` reports there. -/
def chainPath (base : String) (s : List String) : String := s.foldl joinPath base

/-- The slash-joined relative path of a file with name `f` under the
component chain `rel`; for a file under the walked root this is what
`os.path.relpath(file_path, root)` returns. -/
def joinChain (rel : List String) (f : String) : String :=
  match rel with
  | [] => f
  | c :: cs => c ++ "/" ++ joinChain cs f

/-- A directory tree: named subdirectories and named files with contents. -/
inductive FSTree where
  | node (dirs : List (String × FSTree)) (files : List (String × String))

/-- A source file described by its ancestor directory chain (relative to
the walked root), its filename, and its contents. -/
abbrev SrcFile := List String × String × String

mutual

/-- Every file anywhere under a tree, with its directory chain, in
top-down walk order (files of a directory first, then its
subdirectories in order). No filtering of any kind. -/
def allLoc : FSTree → List SrcFile
  | .node dirs files => files.map (fun f => ([], f.1, f.2)) ++ allLocD dirs

def allLocD : List (String × FSTree) → List SrcFile
  | [] => []
  | (n, t) :: rest => (allLoc t).map (fun q => (n :: q.1, q.2)) ++ allLocD rest

end

/-- One archive entry: the source path handed to `zipf.write`, the
internal archive name (`arcname`), and the bytes stored. -/
structure Entry where
  src : String
  arc : String
  content : String
deriving DecidableEq

/-- The directory-name denylist of `create-zips.py` line 29. -/
def pruneNames : List String := [".git", "__pycache__", "node_modules/.cache"]

/-- `zip_name`: the archive base name; the `replace('-', '-')` from the
source is kept verbatim. -/
def zipBase (name : String) : String := "snapitqr-" ++ pyReplaceChar '-' '-' name

/-- The filename of the produced archive. -/
def zipFile (name : String) : String := zipBase name ++ ".zip"

/-- `zip_path`: where the archive is created, inside the root itself. -/
def zipPath (name : String) : String := joinPath name (zipFile name)

mutual

/-- The `os.walk` loop of `create-zips.py` lines 23-38 over the tree at
path `cur` (with `rel` the component chain from the root): when
`zip_path in root`, the files of this directory are skipped and, because
`continue` also skips the `dirs[:]` assignment, no pruning is applied to
its subdirectories; otherwise files not ending in `.zip` are written
under their root-relative name, and subdirectories are filtered against
`pruneNames` before descent. -/
def bulkWalk (zp cur : String) (rel : List String) : FSTree → List Entry
  | .node dirs files =>
    (if pyIn zp cur then []
     else files.filterMap (fun f =>
       if pyEndsWith f.1 ".zip" then none
       else some ⟨joinPath cur f.1, joinChain rel f.1, f.2⟩))
    ++ bulkWalkD zp cur rel (pyIn zp cur) dirs

def bulkWalkD (zp cur : String) (rel : List String) (skip : Bool) :
    List (String × FSTree) → List Entry
  | [] => []
  | (n, t) :: rest =>
    (if skip || !(pruneNames.contains n)
     then bulkWalk zp (joinPath cur n) (rel ++ [n]) t else [])
    ++ bulkWalkD zp cur rel skip rest

end

/-- Add one file at the top level of a tree (the zip file that
`zipfile.ZipFile(zip_path, 'w')` creates before the walk starts). -/
def addTopFile : FSTree → String → String → FSTree
  | .node dirs files, n, c => .node dirs (files ++ [(n, c)])

/-- One iteration of the `for lambda_dir in lambdas` loop for an existing
root `name` with contents `t`: the archive file is created at
`zipPath name` (hence visible to the walk) and the walk fills it. -/
def bulkRun (name : String) (t : FSTree) : List Entry :=
  bulkWalk (zipPath name) name [] (addTopFile t (zipFile name) "")

/-- The whole `create-zips.py` run over a configuration assigning to each
root name either its tree or `none` when `os.path.exists` fails; a
missing root is skipped and produces no archive. -/
def bulkMain (cfg : List (String × Option FSTree)) : List (String × List Entry) :=
  cfg.filterMap (fun x => x.2.map (fun t => (x.1, bulkRun x.1 t)))

/-- The non-production substring denylist of `create_deployment.py`
line 27. -/
def skipSubs : List String := [".bin", "test", "tests", "example", "examples", "docs", ".cache"]

/-- The filename-extension denylist of line 32. -/
def skipExts : List String := [".md", ".txt", ".map", ".ts", ".yml", ".yaml"]

/-- Lines 23-27: a walk root is skipped when its path contains `aws-sdk`
or any of the non-production substrings. -/
def selDirSkip (cur : String) : Bool :=
  pyIn "aws-sdk" cur || skipSubs.any (fun s => pyIn s cur)

/-- Lines 31-35: a file is skipped when its name ends in a denylisted
extension or starts with a dot. -/
def selFileSkip (f : String) : Bool :=
  skipExts.any (fun e => pyEndsWith f e) || pyStartsWith f "."

mutual

/-- The `os.walk('node_modules')` loop of lines 21-39: no pruning of the
subdirectory list ever happens; a directory whose path matches
`selDirSkip` merely contributes no files; surviving files are stored
under `arcname = file_path`, the raw walked path. -/
def selWalk (cur : String) : FSTree → List Entry
  | .node dirs files =>
    (if selDirSkip cur then []
     else files.filterMap (fun f =>
       if selFileSkip f.1 then none
       else some ⟨joinPath cur f.1, joinPath cur f.1, f.2⟩))
    ++ selWalkD cur dirs

def selWalkD (cur : String) : List (String × FSTree) → List Entry
  | [] => []
  | (n, t) :: rest => selWalk (joinPath cur n) t ++ selWalkD cur rest

end

/-- `os.remove(zip_path)` when it exists: drop a top-level file. -/
def removeTopFile : FSTree → String → FSTree
  | .node dirs files, n => .node dirs (files.filter (fun f => f.1 != n))

/-- The effect on the working tree of writing a fresh file named `n` with
contents `c` (any previous file of that name is gone). -/
def setTopFile : FSTree → String → String → FSTree
  | .node dirs files, n, c => .node dirs (files.filter (fun f => f.1 != n) ++ [(n, c)])

/-- `os.path.exists(n)` and reading a top-level file named `n`. -/
def lookupTopFile : FSTree → String → Option String
  | .node _ files, n => (files.find? (fun f => f.1 == n)).map (·.2)

/-- `os.path.exists('node_modules')` as a directory lookup. -/
def findTopDir : FSTree → String → Option FSTree
  | .node dirs _, n => (dirs.find? (fun d => d.1 == n)).map (·.2)

/-- The fixed top-level file list of line 15. -/
def topFiles : List String := ["index.js", "package.json"]

/-- `create_lambda_package()` over the working directory `t`: remove a
stale `function.zip`, add the fixed top-level files that exist, then walk
`node_modules` when that directory exists. -/
def selRun (t : FSTree) : List Entry :=
  let t1 := removeTopFile t "function.zip"
  (topFiles.filterMap (fun f => (lookupTopFile t1 f).map (fun c => ⟨f, f, c⟩)))
  ++ (match findTopDir t1 "node_modules" with
      | some nm => selWalk "node_modules" nm
      | none => [])

/-- The inclusion condition the Bulk Packager walk realises for a file at
directory chain `q.1` under the directory at path `cur`: no ancestor
directory name is in `pruneNames`, the directory path of the file does
not contain the zip path as a substring, and the filename does not end in
`.zip`. -/
def bulkCond (zp cur : String) (q : SrcFile) : Bool :=
  q.1.all (fun d => !(pruneNames.contains d))
  && !(pyIn zp (chainPath cur q.1))
  && !(pyEndsWith q.2.1 ".zip")

/-- The entry the Bulk Packager writes for a surviving source file. -/
def bulkEnt (cur : String) (rel : List String) (q : SrcFile) : Entry :=
  ⟨joinPath (chainPath cur q.1) q.2.1, joinChain (rel ++ q.1) q.2.1, q.2.2⟩

/-- The inclusion condition the Selective Packager walk realises: the
directory path of the file passes `selDirSkip` and the filename passes
`selFileSkip`. -/
def selCond (cur : String) (q : SrcFile) : Bool :=
  !(selDirSkip (chainPath cur q.1)) && !(selFileSkip q.2.1)

/-- The entry the Selective Packager writes: arcname equals the raw
walked source path. -/
def selEnt (cur : String) (q : SrcFile) : Entry :=
  ⟨joinPath (chainPath cur q.1) q.2.1, joinPath (chainPath cur q.1) q.2.1, q.2.2⟩

mutual

/-- Well-formedness of a tree as a real filesystem: no filename contains
a slash. -/
def treeWF : FSTree → Bool
  | .node dirs files => files.all (fun f => !(pyIn "/" f.1)) && treeWFD dirs

def treeWFD : List (String × FSTree) → Bool
  | [] => true
  | (_, t) :: rest => treeWF t && treeWFD rest

end

/-- The exclusion policy exactly as claim C1 states it (from spec section
8): a file survives when no ancestor directory name is one of the pruned
names and the filename does not end in the archive extension `.zip`; the
policy as stated has no rule about the archive output path. -/
def specC1Survives (q : SrcFile) : Bool :=
  q.1.all (fun d => !(pruneNames.contains d)) && !(pyEndsWith q.2.1 ".zip")

/-- A root tree for which the stated policy and the code disagree: the
directory `snapitqr-app.zipd` has a walk path that contains the archive
output path `app/snapitqr-app.zip` of root `app` as a substring. -/
def c1Tree : FSTree := .node [("snapitqr-app.zipd", .node [] [("x.js", "x")])] []

/-- The example tree of the spec scenario: `a.js`, `a.zip`, `.git/config`,
`node_modules/aws-sdk/index.js`, `node_modules/lodash/index.js`. -/
def sampleTree : FSTree :=
  .node [(".git", .node [] [("config", "cfg")]),
         ("node_modules",
           .node [("aws-sdk", .node [] [("index.js", "aws")]),
                  ("lodash", .node [] [("index.js", "lod")])] [])]
        [("a.js", "ajs"), ("a.zip", "azip")]

/-- A root tree showing that the dot-file inclusion of the Bulk Packager
claimed by C9 fails inside a directory whose path contains the archive
output path. -/
def c9Tree : FSTree := .node [("snapitqr-app.zipd", .node [] [(".env", "sec")])] []

/-- A dependency tree showing that a filename containing `aws-sdk` in a
clean directory is still not necessarily included. -/
def c10Tree : FSTree := .node [("lodash", .node [] [("aws-sdk.md", "m")])] []

/-! ## Theorems -/

/-- Structural induction for `FSTree` through the nested list of
subdirectories. -/
theorem FSTree.myInd (P : FSTree → Prop)
    (h : ∀ dirs files, (∀ p ∈ dirs, P p.2) → P (.node dirs files)) : ∀ t, P t
  | .node dirs files => h dirs files (fun p hp => FSTree.myInd P h p.2)
termination_by t => sizeOf t
decreasing_by
  have hlt := List.sizeOf_lt_of_mem hp
  cases p
  simp at *
  omega

theorem chainPath_nil (base : String) : chainPath base [] = base := rfl

theorem chainPath_cons (base n : String) (s : List String) :
    chainPath base (n :: s) = chainPath (joinPath base n) s := rfl

theorem singleton_infix_mem {a : α} {l : List α} : [a] <:+: l ↔ a ∈ l := by
  constructor
  · rintro ⟨s, t, rfl⟩; simp
  · intro h
    obtain ⟨s, t, rfl⟩ := List.mem_iff_append.mp h
    exact ⟨s, t, by simp⟩

theorem pyIn_joinPath {zp cur : String} (h : pyIn zp cur = true) (n : String) :
    pyIn zp (joinPath cur n) = true := by
  simp only [pyIn, decide_eq_true_eq] at *
  refine h.trans ?_
  show cur.data <:+: (cur ++ "/" ++ n).data
  have : (cur ++ "/" ++ n).data = cur.data ++ ("/".data ++ n.data) := by
    simp [List.append_assoc]
  rw [this]
  exact (List.prefix_append cur.data _).isInfix

theorem pyIn_chainPath {zp cur : String} (h : pyIn zp cur = true) (s : List String) :
    pyIn zp (chainPath cur s) = true := by
  induction s generalizing cur with
  | nil => exact h
  | cons n s ih => exact ih (pyIn_joinPath h n)

theorem bulkFiles_seg (zp cur : String) (rel : List String)
    (files : List (String × String)) :
    (if pyIn zp cur then []
     else files.filterMap (fun f =>
       if pyEndsWith f.1 ".zip" then none
       else some ⟨joinPath cur f.1, joinChain rel f.1, f.2⟩))
    = ((files.map (fun f => (([] : List String), f.1, f.2))).filter
        (bulkCond zp cur)).map (bulkEnt cur rel) := by
  by_cases h : pyIn zp cur = true
  · simp only [h, if_true]
    induction files with
    | nil => rfl
    | cons f fs ih =>
      simp only [List.map_cons, List.filter_cons]
      have : bulkCond zp cur ([], f.1, f.2) = false := by
        simp [bulkCond, chainPath_nil, h]
      rw [this]
      simpa using ih
  · replace h : pyIn zp cur = false := by simpa using h
    simp only [h, Bool.false_eq_true, if_false]
    induction files with
    | nil => rfl
    | cons f fs ih =>
      simp only [List.map_cons, List.filter_cons, List.filterMap_cons]
      by_cases hz : pyEndsWith f.1 ".zip" = true
      · have : bulkCond zp cur ([], f.1, f.2) = false := by
          simp [bulkCond, hz]
        rw [this, hz]
        simpa using ih
      · replace hz : pyEndsWith f.1 ".zip" = false := by simpa using hz
        have : bulkCond zp cur ([], f.1, f.2) = true := by
          simp [bulkCond, chainPath_nil, h, hz]
        rw [this, hz]
        simp only [Bool.false_eq_true, if_false, List.map_cons]
        rw [ih]
        simp [bulkEnt, chainPath_nil]

theorem bulkWalkD_eq (zp : String) : ∀ (l : List (String × FSTree)),
    (∀ p ∈ l, ∀ cur rel, bulkWalk zp cur rel p.2
      = ((allLoc p.2).filter (bulkCond zp cur)).map (bulkEnt cur rel)) →
    ∀ cur rel, bulkWalkD zp cur rel (pyIn zp cur) l
      = ((allLocD l).filter (bulkCond zp cur)).map (bulkEnt cur rel) := by
  intro l
  induction l with
  | nil => intro _ cur rel; simp [bulkWalkD, allLocD]
  | cons p rest ih =>
    intro IH cur rel
    obtain ⟨n, t⟩ := p
    rw [bulkWalkD, allLocD, List.filter_append, List.map_append]
    congr 1
    · by_cases hskip : pyIn zp cur = true
      · rw [if_pos (by simp [hskip]),
          IH ⟨n, t⟩ (by simp) (joinPath cur n) (rel ++ [n])]
        rw [List.filter_eq_nil_iff.mpr, List.filter_eq_nil_iff.mpr, List.map_nil,
          List.map_nil]
        · intro q hq
          obtain ⟨q', _, rfl⟩ := List.mem_map.mp hq
          simp [bulkCond, chainPath_cons,
            pyIn_chainPath (pyIn_joinPath hskip n) q'.1]
        · intro q _
          simp [bulkCond, pyIn_chainPath (pyIn_joinPath hskip n) q.1]
      · by_cases hn : pruneNames.contains n = true
        · have hn' : n ∈ pruneNames := by simpa using hn
          rw [if_neg (by simp [hskip, hn'])]
          rw [List.filter_eq_nil_iff.mpr, List.map_nil]
          intro q hq
          obtain ⟨q', _, rfl⟩ := List.mem_map.mp hq
          simp [bulkCond, hn']
        · have hn' : n ∉ pruneNames := by simpa using hn
          rw [if_pos (by simp [hn']),
            IH ⟨n, t⟩ (by simp) (joinPath cur n) (rel ++ [n])]
          rw [List.filter_map, List.map_map]
          have hc : ∀ q : SrcFile,
              (bulkCond zp cur ∘ fun q => (n :: q.1, q.2)) q
                = bulkCond zp (joinPath cur n) q := by
            intro q
            simp [bulkCond, chainPath_cons, hn', Function.comp]
          rw [List.filter_congr (fun q _ => hc q)]
          refine List.map_eq_map_iff.mpr ?_
          intro q _
          simp only [Function.comp, bulkEnt, chainPath_cons]
          have : (rel ++ [n]) ++ q.1 = rel ++ n :: q.1 := by simp
          rw [this]
    · exact ih (fun p hp cur rel => IH p (by simp [hp]) cur rel) cur rel

theorem bulkWalk_eq : ∀ (t : FSTree) (zp cur : String) (rel : List String),
    bulkWalk zp cur rel t
      = ((allLoc t).filter (bulkCond zp cur)).map (bulkEnt cur rel) := by
  intro t
  induction t using FSTree.myInd with
  | h dirs files IH =>
    intro zp cur rel
    rw [bulkWalk, allLoc, List.filter_append, List.map_append]
    congr 1
    · exact bulkFiles_seg zp cur rel files
    · exact bulkWalkD_eq zp dirs (fun p hp cur rel => IH p hp zp cur rel) cur rel

theorem selFiles_seg (cur : String) (files : List (String × String)) :
    (if selDirSkip cur then []
     else files.filterMap (fun f =>
       if selFileSkip f.1 then none
       else some ⟨joinPath cur f.1, joinPath cur f.1, f.2⟩))
    = ((files.map (fun f => (([] : List String), f.1, f.2))).filter
        (selCond cur)).map (selEnt cur) := by
  by_cases h : selDirSkip cur = true
  · simp only [h, if_true]
    induction files with
    | nil => rfl
    | cons f fs ih =>
      simp only [List.map_cons, List.filter_cons]
      have : selCond cur ([], f.1, f.2) = false := by
        simp [selCond, chainPath_nil, h]
      rw [this]
      simpa using ih
  · replace h : selDirSkip cur = false := by simpa using h
    simp only [h, Bool.false_eq_true, if_false]
    induction files with
    | nil => rfl
    | cons f fs ih =>
      simp only [List.map_cons, List.filter_cons, List.filterMap_cons]
      by_cases hz : selFileSkip f.1 = true
      · have : selCond cur ([], f.1, f.2) = false := by
          simp [selCond, hz]
        rw [this, hz]
        simpa using ih
      · replace hz : selFileSkip f.1 = false := by simpa using hz
        have : selCond cur ([], f.1, f.2) = true := by
          simp [selCond, chainPath_nil, h, hz]
        rw [this, hz]
        simp only [Bool.false_eq_true, if_false, List.map_cons]
        rw [ih]
        simp [selEnt, chainPath_nil]

theorem selWalkD_eq : ∀ (l : List (String × FSTree)),
    (∀ p ∈ l, ∀ cur, selWalk cur p.2
      = ((allLoc p.2).filter (selCond cur)).map (selEnt cur)) →
    ∀ cur, selWalkD cur l
      = ((allLocD l).filter (selCond cur)).map (selEnt cur) := by
  intro l
  induction l with
  | nil => intro _ cur; simp [selWalkD, allLocD]
  | cons p rest ih =>
    intro IH cur
    obtain ⟨n, t⟩ := p
    rw [selWalkD, allLocD, List.filter_append, List.map_append]
    congr 1
    · rw [IH ⟨n, t⟩ (by simp) (joinPath cur n)]
      rw [List.filter_map, List.map_map]
      have hc : ∀ q : SrcFile,
          (selCond cur ∘ fun q => (n :: q.1, q.2)) q = selCond (joinPath cur n) q := by
        intro q
        simp [selCond, chainPath_cons, Function.comp]
      rw [List.filter_congr (fun q _ => hc q)]
      refine List.map_eq_map_iff.mpr ?_
      intro q _
      simp only [Function.comp, selEnt, chainPath_cons]
    · exact ih (fun p hp cur => IH p (by simp [hp]) cur) cur

theorem selWalk_eq : ∀ (t : FSTree) (cur : String),
    selWalk cur t = ((allLoc t).filter (selCond cur)).map (selEnt cur) := by
  intro t
  induction t using FSTree.myInd with
  | h dirs files IH =>
    intro cur
    rw [selWalk, allLoc, List.filter_append, List.map_append]
    congr 1
    · exact selFiles_seg cur files
    · exact selWalkD_eq dirs (fun p hp cur => IH p hp cur) cur

theorem zipFile_ends (name : String) : pyEndsWith (zipFile name) ".zip" = true := by
  simp only [pyEndsWith, decide_eq_true_eq]
  show (".zip").data <:+ (zipFile name).data
  have h : (zipFile name).data = (zipBase name).data ++ (".zip").data := rfl
  rw [h]
  exact List.suffix_append _ _

/-- The zip file the Bulk Packager creates at the top of the root is
itself filtered out by the `.zip` extension check, so the produced
entries are exactly the surviving files of the original tree. -/
theorem bulkRun_eq (name : String) (t : FSTree) :
    bulkRun name t
      = ((allLoc t).filter (bulkCond (zipPath name) name)).map (bulkEnt name []) := by
  obtain ⟨dirs, files⟩ := t
  have hz : bulkCond (zipPath name) name ([], zipFile name, "") = false := by
    simp [bulkCond, zipFile_ends]
  rw [bulkRun, addTopFile, bulkWalk_eq, allLoc, allLoc]
  simp [List.filter_append, List.map_append, hz]

theorem mem_bulkRun {name : String} {t : FSTree} {e : Entry} :
    e ∈ bulkRun name t ↔ ∃ q, q ∈ allLoc t
      ∧ bulkCond (zipPath name) name q = true ∧ e = bulkEnt name [] q := by
  rw [bulkRun_eq]
  constructor
  · intro he
    obtain ⟨q, hq, rfl⟩ := List.mem_map.mp he
    obtain ⟨hq1, hq2⟩ := List.mem_filter.mp hq
    exact ⟨q, hq1, hq2, rfl⟩
  · rintro ⟨q, hq1, hq2, rfl⟩
    exact List.mem_map.mpr ⟨q, List.mem_filter.mpr ⟨hq1, hq2⟩, rfl⟩

theorem mem_selWalk {cur : String} {t : FSTree} {e : Entry} :
    e ∈ selWalk cur t ↔ ∃ q, q ∈ allLoc t
      ∧ selCond cur q = true ∧ e = selEnt cur q := by
  rw [selWalk_eq]
  constructor
  · intro he
    obtain ⟨q, hq, rfl⟩ := List.mem_map.mp he
    obtain ⟨hq1, hq2⟩ := List.mem_filter.mp hq
    exact ⟨q, hq1, hq2, rfl⟩
  · rintro ⟨q, hq1, hq2, rfl⟩
    exact List.mem_map.mpr ⟨q, List.mem_filter.mpr ⟨hq1, hq2⟩, rfl⟩

theorem pyReplaceChar_self (c : Char) (s : String) : pyReplaceChar c c s = s := by
  have h : s.data.map (fun x => if x = c then c else x) = s.data := by
    rw [List.map_eq_map_iff.mpr]
    · exact List.map_id s.data
    · intro x _
      by_cases hx : x = c <;> simp [hx]
  apply String.ext
  rw [pyReplaceChar]
  exact h

theorem pyIn_slash_false {f : String} (h : pyIn "/" f = false) : '/' ∉ f.data := by
  intro hm
  have hi : ("/").data <:+: f.data := singleton_infix_mem.mpr hm
  simp [pyIn, hi] at h

theorem zipFile_noSlash {name : String} (h : pyIn "/" name = false) :
    '/' ∉ (zipFile name).data := by
  intro hm
  rw [zipFile, zipBase, pyReplaceChar_self] at hm
  have hd : (("snapitqr-" ++ name) ++ ".zip").data
      = "snapitqr-".data ++ name.data ++ ".zip".data := by
    show ("snapitqr-".data ++ name.data) ++ ".zip".data
      = "snapitqr-".data ++ name.data ++ ".zip".data
    rfl
  rw [hd] at hm
  rcases List.mem_append.mp hm with hm | hm
  · rcases List.mem_append.mp hm with hm | hm
    · exact absurd hm (by decide)
    · exact pyIn_slash_false h hm
  · exact absurd hm (by decide)

theorem firstSplit_unique {α : Type} {c : α} : ∀ (xs ys xs2 ys2 : List α),
    c ∉ xs → c ∉ ys → xs ++ c :: xs2 = ys ++ c :: ys2 → xs = ys ∧ xs2 = ys2 := by
  intro xs
  induction xs with
  | nil =>
    intro ys xs2 ys2 _ hys h
    cases ys with
    | nil => simpa using h
    | cons y ys2' =>
      exfalso
      rw [List.nil_append, List.cons_append] at h
      injection h with h1 h2
      exact hys (h1 ▸ List.mem_cons_self y ys2')
  | cons x xs' ih =>
    intro ys xs2 ys2 hxs hys h
    cases ys with
    | nil =>
      exfalso
      rw [List.nil_append, List.cons_append] at h
      injection h with h1 h2
      rw [h1] at hxs
      exact hxs (List.mem_cons_self c xs')
    | cons y ys' =>
      rw [List.cons_append, List.cons_append] at h
      injection h with h1 h2
      have hrec := ih ys' xs2 ys2 (fun hm => hxs (List.mem_cons_of_mem _ hm))
        (fun hm => hys (List.mem_cons_of_mem _ hm)) h2
      exact ⟨by rw [h1, hrec.1], hrec.2⟩

/-- In a path `a/f` with slash-free final component `f`, the final
component is determined by the whole string. -/
theorem joinPath_inj_last {a b f g : String}
    (hf : '/' ∉ f.data) (hg : '/' ∉ g.data)
    (h : joinPath a f = joinPath b g) : f = g := by
  have hd : a.data ++ '/' :: f.data = b.data ++ '/' :: g.data := by
    have h0 : (a.data ++ "/".data) ++ f.data = (b.data ++ "/".data) ++ g.data :=
      congrArg String.data h
    rw [List.append_assoc, List.append_assoc] at h0
    exact h0
  have h1 := congrArg List.reverse hd
  rw [List.reverse_append, List.reverse_append, List.reverse_cons,
    List.reverse_cons, List.append_assoc, List.append_assoc,
    List.singleton_append, List.singleton_append] at h1
  have h2 := (firstSplit_unique _ _ _ _
    (fun hm => hf (List.mem_reverse.mp hm))
    (fun hm => hg (List.mem_reverse.mp hm)) h1).1
  apply String.ext
  have := congrArg List.reverse h2
  rwa [List.reverse_reverse, List.reverse_reverse] at this

theorem allLocD_wf : ∀ (l : List (String × FSTree)),
    (∀ p ∈ l, treeWF p.2 = true → ∀ q ∈ allLoc p.2, pyIn "/" q.2.1 = false) →
    treeWFD l = true → ∀ q ∈ allLocD l, pyIn "/" q.2.1 = false := by
  intro l
  induction l with
  | nil => intro _ _ q hq; simp [allLocD] at hq
  | cons p rest ih =>
    intro IH hwf q hq
    obtain ⟨n, t⟩ := p
    rw [allLocD] at hq
    rw [treeWFD] at hwf
    simp only [Bool.and_eq_true] at hwf
    obtain ⟨h1, h2⟩ := hwf
    rcases List.mem_append.mp hq with hq | hq
    · obtain ⟨q', hq', rfl⟩ := List.mem_map.mp hq
      exact IH ⟨n, t⟩ (by simp) h1 q' hq'
    · exact ih (fun p hp => IH p (by simp [hp])) h2 q hq

theorem allLoc_wf : ∀ (t : FSTree), treeWF t = true →
    ∀ q ∈ allLoc t, pyIn "/" q.2.1 = false := by
  intro t
  induction t using FSTree.myInd with
  | h dirs files IH =>
    intro hwf q hq
    rw [allLoc] at hq
    rw [treeWF] at hwf
    simp only [Bool.and_eq_true] at hwf
    obtain ⟨h1, h2⟩ := hwf
    rcases List.mem_append.mp hq with hq | hq
    · obtain ⟨f, hf, rfl⟩ := List.mem_map.mp hq
      have := List.all_eq_true.mp h1 f hf
      simpa using this
    · exact allLocD_wf dirs (fun p hp => IH p hp) h2 q hq

theorem joinPath_joinChain : ∀ (s : List String) (base f : String),
    joinPath (chainPath base s) f = joinPath base (joinChain s f) := by
  intro s
  induction s with
  | nil => intro base f; rfl
  | cons n s ih =>
    intro base f
    rw [chainPath_cons, ih (joinPath base n) f]
    show (base ++ "/" ++ n) ++ "/" ++ joinChain s f
      = base ++ "/" ++ (n ++ "/" ++ joinChain s f)
    simp [String.append_assoc]

theorem chainPath_startsWith : ∀ (s : List String) (base f : String),
    pyStartsWith (joinPath (chainPath base s) f) (base ++ "/") = true := by
  intro s
  induction s with
  | nil =>
    intro base f
    simp only [pyStartsWith, decide_eq_true_eq, chainPath_nil]
    show (base ++ "/").data <+: (base ++ "/" ++ f).data
    have h : (base ++ "/" ++ f).data = (base ++ "/").data ++ f.data := rfl
    rw [h]
    exact List.prefix_append _ _
  | cons n s ih =>
    intro base f
    rw [chainPath_cons]
    have h1 := ih (joinPath base n) f
    simp only [pyStartsWith, decide_eq_true_eq] at h1 ⊢
    refine List.IsPrefix.trans ?_ h1
    show (base ++ "/").data <+: (joinPath base n ++ "/").data
    have h2 : (joinPath base n ++ "/").data
        = (base ++ "/").data ++ (n.data ++ "/".data) := by
      show ((base ++ "/").data ++ n.data) ++ "/".data
        = (base ++ "/").data ++ (n.data ++ "/".data)
      rw [List.append_assoc]
    rw [h2]
    exact List.prefix_append _ _

theorem removeTop_setTop (t : FSTree) (n c : String) :
    removeTopFile (setTopFile t n c) n = removeTopFile t n := by
  obtain ⟨dirs, files⟩ := t
  simp [removeTopFile, setTopFile, List.filter_append, List.filter_filter]

theorem lookupTopFile_remove (t : FSTree) {n z : String} (hnz : n ≠ z) :
    lookupTopFile (removeTopFile t z) n = lookupTopFile t n := by
  obtain ⟨dirs, files⟩ := t
  have hzn : z ≠ n := fun h => hnz h.symm
  simp only [removeTopFile, lookupTopFile]
  congr 1
  induction files with
  | nil => rfl
  | cons f fs ih =>
    by_cases hfz : f.1 = z
    · have hfn : (f.1 == n) = false := by simp [hfz, hzn]
      have hzn2 : (z == n) = false := by simp [hzn]
      simp [List.filter_cons, List.find?_cons, hfz, hfn, hzn2, ih]
    · rw [List.filter_cons]
      simp only [hfz, bne_iff_ne, ne_eq, not_false_eq_true, if_true]
      rw [List.find?_cons, List.find?_cons]
      cases hfn : (f.1 == n) <;> simp [hfn, ih]

theorem findTopDir_remove (t : FSTree) (z : String) :
    findTopDir (removeTopFile t z) "node_modules" = findTopDir t "node_modules" := by
  obtain ⟨dirs, files⟩ := t
  rfl

/-- Every entry of the dependency walk is stored under its own raw source
path, which starts with `node_modules/`. -/
theorem selWalk_arc_pre (u : FSTree) : ∀ e ∈ selWalk "node_modules" u,
    pyStartsWith e.arc "node_modules/" = true ∧ e.src = e.arc := by
  intro e he
  obtain ⟨q, hq, hc, rfl⟩ := mem_selWalk.mp he
  refine ⟨?_, rfl⟩
  have h := chainPath_startsWith q.1 "node_modules" q.2.1
  have hs : ("node_modules" ++ "/" : String) = "node_modules/" := rfl
  rw [hs] at h
  exact h

/-- C1, counterexample: on root `app` with tree `c1Tree`, the file `x.js`
survives the exclusion policy exactly as the claim states it, yet the
produced archive is empty (the walk skips every directory whose path
contains the zip path as a substring), so the archive does not contain
one entry per surviving file. -/
theorem c1_counterexample :
    bulkRun "app" c1Tree = []
    ∧ (allLoc c1Tree).filter specC1Survives
        = [(["snapitqr-app.zipd"], "x.js", "x")] := by decide

/-- C1 (amended): for every root directory, the produced archive contains
exactly one entry per file under the root that survives the exclusion
policy extended with the output-path rule the code applies — no ancestor
directory name is pruned, the directory walk path does not contain the
archive output path as a substring, and the filename does not end in
`.zip` — and no entry matching any exclusion rule: the entry list equals
the filtered file enumeration, entry for entry. -/
theorem c1_thm (name : String) (t : FSTree) :
    bulkRun name t
      = ((allLoc t).filter (bulkCond (zipPath name) name)).map (bulkEnt name []) :=
  bulkRun_eq name t

/-- C2, counterexample: neither packager produces the claimed entry set
{a.js, node_modules/lodash/index.js} on the sample tree: the Bulk
Packager also packs `node_modules/aws-sdk/index.js` (it has no
runtime-provided-library rule), and the Selective Packager does not pack
`a.js` (only `index.js` and `package.json` are in its fixed list). -/
theorem c2_counterexample :
    "node_modules/aws-sdk/index.js" ∈ (bulkRun "sample" sampleTree).map Entry.arc
    ∧ "a.js" ∉ (selRun sampleTree).map Entry.arc := by decide

/-- C2 (amended): on the sample tree, the Bulk Packager archive of root
`sample` holds exactly {a.js, node_modules/aws-sdk/index.js,
node_modules/lodash/index.js}, and the Selective Packager run with the
sample tree as working directory holds exactly
{node_modules/lodash/index.js}. -/
theorem c2_thm :
    (bulkRun "sample" sampleTree).map Entry.arc
      = ["a.js", "node_modules/aws-sdk/index.js", "node_modules/lodash/index.js"]
    ∧ (selRun sampleTree).map Entry.arc = ["node_modules/lodash/index.js"] := by
  decide

/-- C3: the Selective Packager is idempotent. A second run sees the tree
left by the first run — the unchanged sources plus the archive
`function.zip` the first run wrote (with whatever bytes `c`) — and first
deletes that archive; its entry list (names and uncompressed contents)
is identical to the first run. -/
theorem c3_thm (t : FSTree) (c : String) :
    selRun (setTopFile t "function.zip" c) = selRun t := by
  simp only [selRun]
  rw [removeTop_setTop]

/-- C4: neither packager ever adds the archive it is writing as an entry,
even though the Bulk Packager writes its archive inside the walked root.
For the Bulk Packager, on any real tree (no filename contains a slash)
and any root name without a slash, no entry source path equals the zip
path: the zip filename ends in `.zip` and every written file does not.
For the Selective Packager, no entry source path equals `function.zip`:
top-level entries are `index.js` or `package.json` and dependency-walk
entries start with `node_modules/`. -/
theorem c4_thm (name : String) (t u : FSTree)
    (hwf : treeWF t = true) (hname : pyIn "/" name = false) :
    (∀ e ∈ bulkRun name t, e.src ≠ zipPath name)
    ∧ (∀ e ∈ selRun u, e.src ≠ "function.zip") := by
  constructor
  · intro e he heq
    obtain ⟨q, hq, hc, rfl⟩ := mem_bulkRun.mp he
    have hfq : '/' ∉ q.2.1.data := pyIn_slash_false (allLoc_wf t hwf q hq)
    have hzq : '/' ∉ (zipFile name).data := zipFile_noSlash hname
    have hfg : q.2.1 = zipFile name := joinPath_inj_last hfq hzq heq
    have h3 : pyEndsWith q.2.1 ".zip" = false := by
      simp only [bulkCond, Bool.and_eq_true] at hc
      simpa using hc.2
    rw [hfg, zipFile_ends] at h3
    cases h3
  · intro e he heq
    obtain ⟨dirs, files⟩ := u
    simp only [selRun] at he
    rcases List.mem_append.mp he with he | he
    · obtain ⟨f, hf, hfe⟩ := List.mem_filterMap.mp he
      rw [Option.map_eq_some'] at hfe
      obtain ⟨c, _, rfl⟩ := hfe
      simp only [topFiles, List.mem_cons, List.mem_singleton] at hf
      rcases hf with rfl | hf
      · have hne : ("index.js" : String) ≠ "function.zip" := by decide
        exact hne heq
      · rcases hf with rfl | hf
        · have hne : ("package.json" : String) ≠ "function.zip" := by decide
          exact hne heq
        · simp at hf
    · rcases hfind : findTopDir
          (removeTopFile (FSTree.node dirs files) "function.zip") "node_modules"
        with _ | nm
      · rw [hfind] at he
        simp at he
      · rw [hfind] at he
        obtain ⟨hpre, hsa⟩ := selWalk_arc_pre nm e he
        rw [← hsa, heq] at hpre
        exact absurd hpre (by decide)

/-- C4, witness: concrete trees on which the theorem applies. -/
theorem c4_witness :
    (Entry.mk "app/a.js" "a.js" "x").src ≠ zipPath "app"
    ∧ (Entry.mk "index.js" "index.js" "i").src ≠ "function.zip" := by
  constructor
  · exact (c4_thm "app" (.node [] [("a.js", "x")]) (.node [] [("index.js", "i")])
      (by decide) (by decide)).1 (Entry.mk "app/a.js" "a.js" "x") (by decide)
  · exact (c4_thm "app" (.node [] [("a.js", "x")]) (.node [] [("index.js", "i")])
      (by decide) (by decide)).2 (Entry.mk "index.js" "index.js" "i") (by decide)

/-- C5: every entry the Bulk Packager writes — equivalently, every file
it reads and hands to `zipf.write` — originates from a file of the
walked tree none of whose ancestor directory names is `.git`,
`__pycache__` or `node_modules/.cache`; hence a directory bearing one of
the pruned names contributes zero entries at any depth, and none of its
files is ever read. -/
theorem c5_thm (name : String) (t : FSTree) :
    ∀ e ∈ bulkRun name t, ∃ q, q ∈ allLoc t
      ∧ (∀ d ∈ q.1, d ∉ pruneNames) ∧ e = bulkEnt name [] q := by
  intro e he
  obtain ⟨q, hq, hc, rfl⟩ := mem_bulkRun.mp he
  refine ⟨q, hq, ?_, rfl⟩
  simp only [bulkCond, Bool.and_eq_true] at hc
  intro d hd
  have := List.all_eq_true.mp hc.1.1 d hd
  simpa using this

/-- C5, witness: the theorem applied to a one-file tree. -/
theorem c5_witness :
    ∃ q, q ∈ allLoc (FSTree.node [] [("a.js", "x")])
      ∧ (∀ d ∈ q.1, d ∉ pruneNames)
      ∧ Entry.mk "app/a.js" "a.js" "x" = bulkEnt "app" [] q :=
  c5_thm "app" (.node [] [("a.js", "x")]) (Entry.mk "app/a.js" "a.js" "x")
    (by decide)

/-- C6: a configured root that does not exist contributes no archive, and
the remaining roots before and after it are processed unchanged and in
order; the run is total, so no exception interrupts it. -/
theorem c6_thm (pre post : List (String × Option FSTree)) (nm : String) :
    bulkMain (pre ++ (nm, none) :: post) = bulkMain pre ++ bulkMain post := by
  simp [bulkMain, List.filterMap_append, List.filterMap_cons]

/-- C7: every Bulk Packager entry is stored under the source path made
relative to the root (source = root/arcname), while every entry of the
Selective Packager dependency walk is stored under the raw walked source
path itself, which carries the `node_modules/` prefix. -/
theorem c7_thm (name : String) (t u : FSTree) :
    ((bulkRun name t).all (fun e => e.src == joinPath name e.arc)) = true
    ∧ ((selWalk "node_modules" u).all
        (fun e => (e.src == e.arc) && pyStartsWith e.arc "node_modules/")) = true := by
  constructor
  · refine List.all_eq_true.mpr ?_
    intro e he
    obtain ⟨q, hq, hc, rfl⟩ := mem_bulkRun.mp he
    have h := joinPath_joinChain q.1 name q.2.1
    simp [bulkEnt, h]
  · refine List.all_eq_true.mpr ?_
    intro e he
    obtain ⟨hpre, hsa⟩ := selWalk_arc_pre u e he
    simp [hsa, hpre]

/-- C8: each file of the fixed top-level list (`index.js`,
`package.json`) is added as an entry under its own name, with its own
contents, exactly when it exists; a missing file is silently skipped and
in that case no entry of that name appears at all. -/
theorem c8_thm (t : FSTree) :
    ((lookupTopFile t "index.js").elim
        ("index.js" ∉ (selRun t).map Entry.arc)
        (fun c => Entry.mk "index.js" "index.js" c ∈ selRun t))
    ∧ ((lookupTopFile t "package.json").elim
        ("package.json" ∉ (selRun t).map Entry.arc)
        (fun c => Entry.mk "package.json" "package.json" c ∈ selRun t)) := by
  obtain ⟨dirs, files⟩ := t
  have hix : lookupTopFile (removeTopFile (FSTree.node dirs files) "function.zip")
      "index.js" = lookupTopFile (FSTree.node dirs files) "index.js" :=
    lookupTopFile_remove _ (by decide)
  have hpk : lookupTopFile (removeTopFile (FSTree.node dirs files) "function.zip")
      "package.json" = lookupTopFile (FSTree.node dirs files) "package.json" :=
    lookupTopFile_remove _ (by decide)
  constructor
  · cases hc : lookupTopFile (FSTree.node dirs files) "index.js" with
    | none =>
      simp only [Option.elim]
      intro hmem
      obtain ⟨e, he, harc⟩ := List.mem_map.mp hmem
      simp only [selRun] at he
      rcases List.mem_append.mp he with he | he
      · obtain ⟨f, hf, hfe⟩ := List.mem_filterMap.mp he
        rw [Option.map_eq_some'] at hfe
        obtain ⟨c, hc1, rfl⟩ := hfe
        have harc2 : f = "index.js" := harc
        rw [harc2, hix, hc] at hc1
        cases hc1
      · rcases hfind : findTopDir
            (removeTopFile (FSTree.node dirs files) "function.zip") "node_modules"
          with _ | nm
        · rw [hfind] at he
          simp at he
        · rw [hfind] at he
          obtain ⟨hpre, _⟩ := selWalk_arc_pre nm e he
          rw [harc] at hpre
          exact absurd hpre (by decide)
    | some c =>
      simp only [Option.elim, selRun]
      refine List.mem_append.mpr (Or.inl ?_)
      refine List.mem_filterMap.mpr ⟨"index.js", by simp [topFiles], ?_⟩
      rw [hix, hc]
      rfl
  · cases hc : lookupTopFile (FSTree.node dirs files) "package.json" with
    | none =>
      simp only [Option.elim]
      intro hmem
      obtain ⟨e, he, harc⟩ := List.mem_map.mp hmem
      simp only [selRun] at he
      rcases List.mem_append.mp he with he | he
      · obtain ⟨f, hf, hfe⟩ := List.mem_filterMap.mp he
        rw [Option.map_eq_some'] at hfe
        obtain ⟨c, hc1, rfl⟩ := hfe
        have harc2 : f = "package.json" := harc
        rw [harc2, hpk, hc] at hc1
        cases hc1
      · rcases hfind : findTopDir
            (removeTopFile (FSTree.node dirs files) "function.zip") "node_modules"
          with _ | nm
        · rw [hfind] at he
          simp at he
        · rw [hfind] at he
          obtain ⟨hpre, _⟩ := selWalk_arc_pre nm e he
          rw [harc] at hpre
          exact absurd hpre (by decide)
    | some c =>
      simp only [Option.elim, selRun]
      refine List.mem_append.mpr (Or.inl ?_)
      refine List.mem_filterMap.mpr ⟨"package.json", by simp [topFiles], ?_⟩
      rw [hpk, hc]
      rfl

/-- C9, counterexample: the dot-file `.env` lies outside all pruned
directories and does not end in `.zip`, yet the Bulk Packager archive of
root `app` is empty, because the directory path
`app/snapitqr-app.zipd` contains the archive output path as a
substring. -/
theorem c9_counterexample :
    bulkRun "app" c9Tree = []
    ∧ (allLoc c9Tree).filter specC1Survives = [(["snapitqr-app.zipd"], ".env", "sec")]
    ∧ pyStartsWith ".env" "." = true := by decide

/-- C9 (amended): in the Bulk Packager, a file whose name starts with a
dot and survives the full exclusion policy (outside pruned directories,
outside any directory whose walk path contains the archive output path,
not ending in `.zip`) is included in the archive; the dot-file exclusion
exists only in the Selective Packager, whose dependency walk only packs
files whose names do not start with a dot. -/
theorem c9_thm (name : String) (t : FSTree) (q : SrcFile)
    (hq : q ∈ allLoc t) (hc : bulkCond (zipPath name) name q = true)
    (hdot : pyStartsWith q.2.1 "." = true) :
    bulkEnt name [] q ∈ bulkRun name t
    ∧ ∀ (u : FSTree) (e : Entry), e ∈ selWalk "node_modules" u →
        ∃ q2, q2 ∈ allLoc u ∧ e = selEnt "node_modules" q2
          ∧ pyStartsWith q2.2.1 "." = false := by
  constructor
  · exact mem_bulkRun.mpr ⟨q, hq, hc, rfl⟩
  · intro u e he
    obtain ⟨q2, hq2, hc2, rfl⟩ := mem_selWalk.mp he
    refine ⟨q2, hq2, rfl, ?_⟩
    simp only [selCond, Bool.and_eq_true] at hc2
    have h2 := hc2.2
    simp only [Bool.not_eq_true'] at h2
    simp only [selFileSkip, Bool.or_eq_false_iff] at h2
    exact h2.2

/-- C9, witness: a top-level `.env` applied through the theorem. -/
theorem c9_witness :
    bulkEnt "app" [] ([], ".env", "sec") ∈ bulkRun "app" (.node [] [(".env", "sec")]) :=
  (c9_thm "app" (.node [] [(".env", "sec")]) ([], ".env", "sec")
    (by decide) (by decide) (by decide)).1

/-- C10, counterexample: `aws-sdk.md` has `aws-sdk` in its own filename
and sits under `node_modules/lodash`, whose path is free of `aws-sdk`;
the claim says such a file is included, but the walk produces no entry
for it (the `.md` extension rule rejects it). -/
theorem c10_counterexample :
    selWalk "node_modules" c10Tree = []
    ∧ pyIn "aws-sdk" "aws-sdk.md" = true
    ∧ pyIn "aws-sdk" (chainPath "node_modules" ["lodash"]) = false := by decide

/-- C10 (amended): the runtime-provided-library exclusion tests only the
containing directory path: every entry of the dependency walk comes from
a directory path free of `aws-sdk` (so every file under a directory path
containing that substring, scoped packages included, is excluded), while
a file whose own filename contains `aws-sdk` inside a directory whose
path does not is not excluded by that rule: it is included provided the
directory also avoids the non-production substrings and the filename
passes the extension and dot filters. -/
theorem c10_thm :
    (∀ (u : FSTree) (e : Entry), e ∈ selWalk "node_modules" u →
       ∃ q, q ∈ allLoc u ∧ e = selEnt "node_modules" q
         ∧ pyIn "aws-sdk" (chainPath "node_modules" q.1) = false)
    ∧ (∀ (u : FSTree) (q : SrcFile), q ∈ allLoc u →
       pyIn "aws-sdk" (chainPath "node_modules" q.1) = false →
       skipSubs.all (fun s => !(pyIn s (chainPath "node_modules" q.1))) = true →
       selFileSkip q.2.1 = false →
       selEnt "node_modules" q ∈ selWalk "node_modules" u) := by
  constructor
  · intro u e he
    obtain ⟨q, hq, hc, rfl⟩ := mem_selWalk.mp he
    refine ⟨q, hq, rfl, ?_⟩
    simp only [selCond, Bool.and_eq_true] at hc
    have h1 := hc.1
    simp only [Bool.not_eq_true'] at h1
    simp only [selDirSkip, Bool.or_eq_false_iff] at h1
    exact h1.1
  · intro u q hq h1 h2 h3
    refine mem_selWalk.mpr ⟨q, hq, ?_, rfl⟩
    have h2' : skipSubs.any (fun s => pyIn s (chainPath "node_modules" q.1)) = false := by
      rw [List.any_eq_false]
      intro s hs
      have := List.all_eq_true.mp h2 s hs
      simpa using this
    simp [selCond, selDirSkip, h1, h2', h3]

/-- C10, witness: `aws-sdk.js` under `node_modules/lodash` is packed. -/
theorem c10_witness :
    selEnt "node_modules" (["lodash"], "aws-sdk.js", "j")
      ∈ selWalk "node_modules" (.node [("lodash", .node [] [("aws-sdk.js", "j")])] []) :=
  c10_thm.2 (.node [("lodash", .node [] [("aws-sdk.js", "j")])] [])
    (["lodash"], "aws-sdk.js", "j") (by decide) (by decide) (by decide) (by decide)

/-- C8, witness: on a tree owning `index.js` but no `package.json`, the
theorem yields the entry for the first and the absence of the second. -/
theorem c8_witness :
    Entry.mk "index.js" "index.js" "i" ∈ selRun (.node [] [("index.js", "i")])
    ∧ "package.json" ∉ (selRun (.node [] [("index.js", "i")])).map Entry.arc :=
  ⟨(c8_thm (.node [] [("index.js", "i")])).1,
   (c8_thm (.node [] [("index.js", "i")])).2⟩
